import Mathlib

/-!
Verification of the qjp interactive picker core (src/main.go, the
multi-select variant).  Strings are embedded as byte lists (`List Nat`),
Go's `map[int]bool` as an association list with unique keys, and the
application struct `App` as a Lean structure.  All definitions are
executable; theorems settle the spec claims C1..C10.
-/

namespace Qjp

/-- Byte list of an ASCII string, used to write concrete scenarios. -/
def bytes (s : String) : List Nat := s.data.map Char.toNat

/-- Embedding of Go `strings.ToLower` on one byte (ASCII range, which is
all the interactive filter can ever contain since typed bytes are 32..126). -/
def lowerByte (b : Nat) : Nat := if 65 ≤ b ∧ b ≤ 90 then b + 32 else b

/-- Embedding of Go `strings.ToLower` on a byte string. -/
def strToLower (s : List Nat) : List Nat := s.map lowerByte

/-- Does `s` start with `pre`?  (Helper for `containsSub`.) -/
def startsWith : List Nat → List Nat → Bool
  | _, [] => true
  | [], _ :: _ => false
  | h :: t, p :: ps => h = p && startsWith t ps

/-- Embedding of Go `strings.Contains s sub`: `sub` occurs as a contiguous
substring of `s`. -/
def containsSub : List Nat → List Nat → Bool
  | [], sub => sub.isEmpty
  | h :: t, sub => startsWith (h :: t) sub || containsSub t sub

/-- Read from the embedded Go `map[int]bool`: a missing key reads as `false`,
exactly like Go's zero value. -/
def mapGet : List (Nat × Bool) → Nat → Bool
  | [], _ => false
  | (k', v') :: rest, k => if k' = k then v' else mapGet rest k

/-- Write to the embedded Go `map[int]bool`: update the entry in place if the
key is present, otherwise append it.  Go map assignment never deletes a key. -/
def mapSet : List (Nat × Bool) → Nat → Bool → List (Nat × Bool)
  | [], k, v => [(k, v)]
  | (k', v') :: rest, k, v =>
    if k' = k then (k, v) :: rest else (k', v') :: mapSet rest k v

/-- The mutable application state of `App` in src/main.go.  `displayVals i`
is the display string `getDisplayValue(objects[i])`: the record store and
the display configuration (attributes, separator, table padding) are fixed
for the session, so the per-record display strings they determine are
precomputed here once.  `selected` embeds the Go map `selected map[int]bool`. -/
structure App where
  displayVals : List (List Nat)
  cursor : Nat
  filtered : List Nat
  filter : List Nat
  width : Nat
  height : Nat
  truncate : Bool
  selected : List (Nat × Bool)
deriving DecidableEq

/-- Embedding of `newApp`: every record starts visible, cursor at 0, empty
filter, empty selection. -/
def initialApp (displayVals : List (List Nat)) (width height : Nat)
    (tr : Bool) : App :=
  { displayVals := displayVals
    cursor := 0
    filtered := List.range displayVals.length
    filter := []
    width := width
    height := height
    truncate := tr
    selected := [] }

/-- Embedding of `(*App).updateFilter`: recompute the matching record
positions for the current filter text (case-insensitive substring test
against each record's display value), then clamp the cursor if it now
exceeds the match count.  An empty filter matches every record and returns
early without touching the cursor. -/
def App.updateFilter (a : App) : App :=
  let filterText := strToLower a.filter
  if filterText = [] then
    { a with filtered := List.range a.displayVals.length }
  else
    let filtered := (List.range a.displayVals.length).filter
      (fun i => containsSub (strToLower (a.displayVals.getD i [])) filterText)
    let cursor :=
      if filtered.length ≤ a.cursor then max 0 (filtered.length - 1)
      else a.cursor
    { a with filtered := filtered, cursor := cursor }

/-- Embedding of `(*App).toggleSelection`: flip the map entry of the record
position under the cursor, then advance the cursor if not at the last match. -/
def App.toggleSelection (a : App) : App :=
  if a.filtered.length ≠ 0 ∧ a.cursor < a.filtered.length then
    let idx := a.filtered.getD a.cursor 0
    let selected := mapSet a.selected idx (!(mapGet a.selected idx))
    let cursor :=
      if a.cursor < a.filtered.length - 1 then a.cursor + 1 else a.cursor
    { a with selected := selected, cursor := cursor }
  else a

/-- Embedding of `(*App).getSelection`: `nil` when the match list is empty or
the cursor is out of range; otherwise, when the selection map holds any key,
all of its keys sorted ascending (Go iterates the keys in arbitrary order and
then calls `sort.Ints`, so the result is the sorted key list); otherwise the
single record position under the cursor. -/
def App.getSelection (a : App) : List Nat :=
  if a.filtered.length = 0 ∨ a.filtered.length ≤ a.cursor then []
  else if 0 < a.selected.length then
    List.insertionSort (· ≤ ·) (a.selected.map Prod.fst)
  else [a.filtered.getD a.cursor 0]

/-- Embedding of `(*App).handleBackspace`: drop the last filter byte and
re-filter; no-op on an empty filter. -/
def App.handleBackspace (a : App) : App :=
  if a.filter.length ≠ 0 then
    App.updateFilter { a with filter := a.filter.dropLast }
  else a

/-- Embedding of `(*App).handleCharacter`: printable bytes 32..126 are
appended to the filter text, which is then recomputed; anything else is
ignored. -/
def App.handleCharacter (a : App) (ch : Nat) : App :=
  if 32 ≤ ch ∧ ch < 127 then
    App.updateFilter { a with filter := a.filter ++ [ch] }
  else a

/-- Embedding of `(*App).moveCursorUp`. -/
def App.moveCursorUp (a : App) : App :=
  if 0 < a.cursor then { a with cursor := a.cursor - 1 } else a

/-- Embedding of `(*App).moveCursorDown`. -/
def App.moveCursorDown (a : App) : App :=
  if a.cursor + 1 < a.filtered.length then { a with cursor := a.cursor + 1 }
  else a

/-- Embedding of `(*App).handleInput`: classify one raw read (`buf` is the
`n` bytes actually read) and apply its effect.  The returned pair is Go's
`(done, result)` plus the successor state (rendering is output-only and has
no state effect). -/
def App.handleInput (a : App) (buf : List Nat) : (Bool × List Nat) × App :=
  match buf with
  | [b] =>
    if b = 0 then ((false, []), a.toggleSelection)
    else if b = 3 ∨ b = 27 then ((true, []), a)
    else if b = 10 ∨ b = 13 then ((true, a.getSelection), a)
    else if b = 127 then ((false, []), a.handleBackspace)
    else ((false, []), a.handleCharacter b)
  | [b1, b2, b3] =>
    if b1 = 27 ∧ b2 = 91 then
      if b3 = 65 then ((false, []), a.moveCursorUp)
      else if b3 = 66 then ((false, []), a.moveCursorDown)
      else ((false, []), a)
    else ((false, []), a)
  | _ => ((false, []), a)

/-- Embedding of `(*App).calculateLines`: rows an item occupies.  An empty
display string or truncate mode costs one row; otherwise the string wraps at
`width - 2` columns (the two-column cursor prefix), with degenerate widths
clamped to one row. -/
def App.calculateLines (a : App) (displayVal : List Nat) : Nat :=
  if displayVal.length = 0 then 1
  else if a.truncate then 1
  else
    let effectiveWidth := a.width - 2
    if effectiveWidth = 0 then 1
    else
      let lines := (displayVal.length + effectiveWidth - 1) / effectiveWidth
      if lines = 0 then 1 else lines

/-- Embedding of the truncation step of `(*App).render` (the
`if a.truncate { ... }` block): in truncate mode a display string longer
than `width - 2` is cut to `width - 2 - 3` bytes plus a three-byte `...`
marker, but only when `width - 2 > 3`. -/
def App.renderTruncate (a : App) (displayVal : List Nat) : List Nat :=
  if a.truncate then
    let maxWidth := a.width - 2
    if maxWidth < displayVal.length ∧ 3 < maxWidth then
      displayVal.take (maxWidth - 3) ++ bytes "..."
    else displayVal
  else displayVal

/-- Upward expansion loop of the viewport computation in `(*App).render`:
starting at the cursor, step `start` down while the row cost of the item
above still fits in the half budget, accumulating used rows. -/
def expandUp (costs : List Nat) (half : Nat) : Nat → Nat → Nat × Nat
  | 0, used => (0, used)
  | s + 1, used =>
    let c := costs.getD s 0
    if half < used + c then (s + 1, used)
    else expandUp costs half s (used + c)

/-- Downward expansion loop of the viewport computation in `(*App).render`,
walking the suffix of row costs from the current `end` index: stop as soon
as the next item would push the used rows over the whole budget. -/
def expandDownAux (avail : Nat) : List Nat → Nat → Nat → Nat
  | [], e, _ => e
  | c :: rest, e, used =>
    if avail < used + c then e else expandDownAux avail rest (e + 1) (used + c)

/-- Downward expansion starting at index `e` of the cost list. -/
def expandDown (costs : List Nat) (avail e used : Nat) : Nat :=
  expandDownAux avail (costs.drop e) e used

/-- The visible-window computation of `(*App).render`, parameterized by the
per-item row costs (item `i` of the match list costs `costs[i]` rows, i.e.
`calculateLines` of its display value): `(0, 0)` when nothing matches,
otherwise expand up from the cursor within half the budget, add the cursor
item's own cost, and expand down within the full budget. -/
def computeWindow (costs : List Nat) (cursor avail : Nat) : Nat × Nat :=
  if costs.length = 0 then (0, 0)
  else
    ((expandUp costs (avail / 2) cursor 0).1,
      expandDown costs avail (cursor + 1)
        ((expandUp costs (avail / 2) cursor 0).2 + costs.getD cursor 0))

/-- The per-item row costs `(*App).render` feeds its window computation. -/
def App.itemCosts (a : App) : List Nat :=
  a.filtered.map (fun idx => a.calculateLines (a.displayVals.getD idx []))

/-- The row budget of `(*App).render`: four chrome rows, clamped to one. -/
def App.availableLines (a : App) : Nat :=
  if a.height - 4 = 0 then 1 else a.height - 4

/-- The `(start, end)` window `(*App).render` paints. -/
def App.windowOf (a : App) : Nat × Nat :=
  computeWindow a.itemCosts a.cursor a.availableLines

/-! ### Specification-side definitions

These render the spec's own wording (§4.3 centered expansion, §4.5 decoder
classification) so the source embeddings above can be proved to refine them. -/

/-- Total row cost of the items with indices in `[lo, hi)`. -/
def sumRange (costs : List Nat) (lo hi : Nat) : Nat :=
  if lo < hi then costs.getD lo 0 + sumRange costs (lo + 1) hi else 0
termination_by hi - lo

/-- Window start per the spec's words: decrement `start` from the cursor
while the accumulated row cost of the items above stays within the half
budget. -/
def specUp (costs : List Nat) (cursor half : Nat) : Nat → Nat
  | 0 => 0
  | s + 1 => if half < sumRange costs s cursor then s + 1 else specUp costs cursor half s

/-- Window end per the spec's words: advance `e` while the total row cost
from `start` up to and including item `e` stays within the whole budget. -/
def specDown (costs : List Nat) (avail start e : Nat) : Nat :=
  if e < costs.length ∧ sumRange costs start (e + 1) ≤ avail then
    specDown costs avail start (e + 1)
  else e
termination_by costs.length - e
decreasing_by omega

/-- The centered-expansion contract of the Viewport Windower, written from
the spec's numbered steps. -/
def computeWindowSpec (costs : List Nat) (cursor avail : Nat) : Nat × Nat :=
  if costs.length = 0 then (0, 0)
  else
    let start := specUp costs cursor (avail / 2) cursor
    (start, specDown costs avail start (cursor + 1))

/-- The discrete action events of the Input Decoder. -/
inductive Event where
  | cancel
  | confirm
  | backspace
  | toggleMark
  | characterTyped (b : Nat)
  | moveUp
  | moveDown
deriving DecidableEq

/-- The decoder classification table, written from the spec's words: byte 3
or 27 alone cancels, 10 or 13 confirms, 127 is backspace, 0 toggles the
mark, printable bytes 32..126 are typed characters, `ESC [ A` and `ESC [ B`
are the arrow keys, and every other read emits no event. -/
def decodeEvent (buf : List Nat) : Option Event :=
  match buf with
  | [b] =>
    if b = 3 ∨ b = 27 then some .cancel
    else if b = 10 ∨ b = 13 then some .confirm
    else if b = 127 then some .backspace
    else if b = 0 then some .toggleMark
    else if 32 ≤ b ∧ b ≤ 126 then some (.characterTyped b)
    else none
  | [b1, b2, b3] =>
    if b1 = 27 ∧ b2 = 91 then
      if b3 = 65 then some .moveUp
      else if b3 = 66 then some .moveDown
      else none
    else none
  | _ => none

/-- The state/result effect each decoded event has, per the spec's
component contracts. -/
def applyEvent (a : App) : Event → (Bool × List Nat) × App
  | .cancel => ((true, []), a)
  | .confirm => ((true, a.getSelection), a)
  | .backspace => ((false, []), a.handleBackspace)
  | .toggleMark => ((false, []), a.toggleSelection)
  | .characterTyped b => ((false, []), a.handleCharacter b)
  | .moveUp => ((false, []), a.moveCursorUp)
  | .moveDown => ((false, []), a.moveCursorDown)

/-! ### Helper lemmas -/

theorem startsWith_append (s a b : List Nat) :
    startsWith s (a ++ b) = true → startsWith s a = true := by
  induction a generalizing s with
  | nil => intro _; cases s <;> rfl
  | cons x xs ih =>
    intro h
    cases s with
    | nil => simp [startsWith] at h
    | cons y ys =>
      simp only [List.cons_append, startsWith, Bool.and_eq_true] at h ⊢
      exact ⟨h.1, ih ys h.2⟩

theorem containsSub_append (s a b : List Nat) :
    containsSub s (a ++ b) = true → containsSub s a = true := by
  induction s with
  | nil =>
    intro h
    simp only [containsSub, List.isEmpty_iff, List.append_eq_nil] at h ⊢
    exact h.1
  | cons y ys ih =>
    intro h
    simp only [containsSub, Bool.or_eq_true] at h ⊢
    rcases h with h | h
    · exact Or.inl (startsWith_append _ a b h)
    · exact Or.inr (ih h)

theorem strToLower_append (a b : List Nat) :
    strToLower (a ++ b) = strToLower a ++ strToLower b :=
  List.map_append lowerByte a b

theorem strToLower_eq_nil {s : List Nat} : strToLower s = [] ↔ s = [] := by
  simp [strToLower]

theorem mapGet_mapSet_self (m : List (Nat × Bool)) (k : Nat) (v : Bool) :
    mapGet (mapSet m k v) k = v := by
  induction m with
  | nil => simp [mapSet, mapGet]
  | cons kv rest ih =>
    obtain ⟨k', v'⟩ := kv
    by_cases h : k' = k
    · simp [mapSet, h, mapGet]
    · simp [mapSet, h, mapGet, ih]

theorem mapGet_mapSet_ne (m : List (Nat × Bool)) (k : Nat) (v : Bool)
    (p : Nat) (hp : k ≠ p) : mapGet (mapSet m k v) p = mapGet m p := by
  induction m with
  | nil => simp [mapSet, mapGet, hp]
  | cons kv rest ih =>
    obtain ⟨k', v'⟩ := kv
    by_cases h : k' = k
    · subst h; simp [mapSet, mapGet, hp]
    · simp only [mapSet, if_neg h, mapGet]
      split <;> simp_all

theorem mapGet_true_iff (m : List (Nat × Bool))
    (hall : ∀ kv ∈ m, kv.2 = true) (p : Nat) :
    mapGet m p = true ↔ p ∈ m.map Prod.fst := by
  induction m with
  | nil => simp [mapGet]
  | cons kv rest ih =>
    obtain ⟨k, v⟩ := kv
    have hv : v = true := hall (k, v) (List.mem_cons_self _ _)
    have hall' : ∀ kv ∈ rest, kv.2 = true :=
      fun kv hkv => hall kv (List.mem_cons_of_mem _ hkv)
    simp only [mapGet, List.map_cons, List.mem_cons]
    by_cases hk : k = p
    · subst hk hv; simp
    · rw [if_neg hk, ih hall']
      constructor
      · exact Or.inr
      · rintro (h | h)
        · exact absurd h.symm hk
        · exact h

theorem sumRange_self (costs : List Nat) (lo : Nat) : sumRange costs lo lo = 0 := by
  rw [sumRange]; simp

theorem sumRange_step (costs : List Nat) {lo hi : Nat} (h : lo < hi) :
    sumRange costs lo hi = costs.getD lo 0 + sumRange costs (lo + 1) hi := by
  conv_lhs => rw [sumRange]
  rw [if_pos h]

theorem sumRange_succ_right (costs : List Nat) {lo hi : Nat} (h : lo ≤ hi) :
    sumRange costs lo (hi + 1) = sumRange costs lo hi + costs.getD hi 0 := by
  obtain ⟨d, rfl⟩ : ∃ d, hi = lo + d := ⟨hi - lo, by omega⟩
  clear h
  induction d generalizing lo with
  | zero =>
    simp only [Nat.add_zero]
    rw [sumRange_step costs (by omega), sumRange_self, sumRange_self]
    omega
  | succ d ih =>
    rw [sumRange_step costs (show lo < lo + (d + 1) + 1 by omega),
      sumRange_step costs (show lo < lo + (d + 1) by omega)]
    have h1 : lo + (d + 1) + 1 = lo + 1 + d + 1 := by omega
    have h2 : lo + (d + 1) = lo + 1 + d := by omega
    rw [h1, h2, ih]
    omega

theorem specUp_le (costs : List Nat) (cursor half : Nat) :
    ∀ s, specUp costs cursor half s ≤ s := by
  intro s
  induction s with
  | zero => simp [specUp]
  | succ s ih =>
    rw [specUp]
    split
    · exact Nat.le_refl _
    · exact Nat.le_trans ih (Nat.le_succ s)

theorem expandUp_eq (costs : List Nat) (half cursor : Nat) :
    ∀ s, s ≤ cursor →
      expandUp costs half s (sumRange costs s cursor) =
        (specUp costs cursor half s,
          sumRange costs (specUp costs cursor half s) cursor) := by
  intro s
  induction s with
  | zero => intro _; simp [expandUp, specUp]
  | succ s ih =>
    intro hs
    have hdec : sumRange costs s cursor = costs.getD s 0 + sumRange costs (s + 1) cursor :=
      sumRange_step costs (by omega)
    simp only [expandUp, specUp]
    by_cases hc : half < sumRange costs s cursor
    · rw [if_pos (by omega), if_pos hc]
    · rw [if_neg (by omega), if_neg hc,
        show sumRange costs (s + 1) cursor + costs.getD s 0 = sumRange costs s cursor by omega]
      exact ih (by omega)

theorem expandUp_fst_le (costs : List Nat) (half : Nat) :
    ∀ s used, (expandUp costs half s used).1 ≤ s := by
  intro s
  induction s with
  | zero => intro used; simp [expandUp]
  | succ s ih =>
    intro used
    simp only [expandUp]
    split
    · exact Nat.le_refl _
    · exact Nat.le_trans (ih _) (Nat.le_succ s)

theorem le_expandDownAux (avail : Nat) :
    ∀ l e used, e ≤ expandDownAux avail l e used := by
  intro l
  induction l with
  | nil => intro e used; simp [expandDownAux]
  | cons c rest ih =>
    intro e used
    simp only [expandDownAux]
    split
    · exact Nat.le_refl _
    · exact Nat.le_trans (Nat.le_succ e) (ih (e + 1) _)

theorem expandDown_eq (costs : List Nat) (avail start : Nat) :
    ∀ e used, start ≤ e → used = sumRange costs start e →
      expandDown costs avail e used = specDown costs avail start e := by
  suffices H : ∀ n e used, costs.length - e ≤ n → start ≤ e →
      used = sumRange costs start e →
      expandDown costs avail e used = specDown costs avail start e from
    fun e used he hu => H (costs.length - e) e used (Nat.le_refl _) he hu
  intro n
  induction n with
  | zero =>
    intro e used hn he hu
    have hle : costs.length ≤ e := by omega
    rw [expandDown, List.drop_eq_nil_of_le hle, specDown]
    rw [if_neg (by omega)]
    rfl
  | succ n ih =>
    intro e used hn he hu
    by_cases hlt : e < costs.length
    · have hdrop : costs.drop e = costs.getD e 0 :: costs.drop (e + 1) := by
        rw [List.drop_eq_getElem_cons hlt, List.getD_eq_getElem costs 0 hlt]
      have hsum : used + costs.getD e 0 = sumRange costs start (e + 1) := by
        rw [sumRange_succ_right costs he]; omega
      rw [expandDown, hdrop]
      simp only [expandDownAux]
      conv_rhs => rw [specDown]
      by_cases hc : avail < used + costs.getD e 0
      · rw [if_pos hc, if_neg (by omega)]
      · rw [if_neg hc, if_pos ⟨hlt, by omega⟩, ← expandDown]
        exact ih (e + 1) _ (by omega) (by omega) (by omega)
    · have hle : costs.length ≤ e := by omega
      rw [expandDown, List.drop_eq_nil_of_le hle, specDown]
      rw [if_neg (by omega)]
      rfl

/-! ### Claim theorems -/

/-- C4: the visible window of `render` is computed by centered expansion —
start is initialized to the cursor and decremented while the accumulated
row cost of the item above stays within `availableRows/2`, then the cursor
item's own cost is added, then the end expands downward from `cursor+1`
while the total stays within `availableRows` — and in particular five
matches of one row each with a budget of 2 rows and the cursor at 2 give
the window `(1, 3)`. -/
theorem windowCenteredExpansion :
    (∀ costs cursor avail,
      computeWindow costs cursor avail = computeWindowSpec costs cursor avail) ∧
      computeWindow [1, 1, 1, 1, 1] 2 2 = (1, 3) := by
  refine ⟨?_, by decide⟩
  intro costs cursor avail
  unfold computeWindow computeWindowSpec
  by_cases h : costs.length = 0
  · rw [if_pos h, if_pos h]
  · rw [if_neg h, if_neg h]
    have h1 := expandUp_eq costs (avail / 2) cursor cursor (Nat.le_refl _)
    rw [sumRange_self] at h1
    rw [h1]
    have hle : specUp costs cursor (avail / 2) cursor ≤ cursor :=
      specUp_le costs cursor (avail / 2) cursor
    have hsum : sumRange costs (specUp costs cursor (avail / 2) cursor) cursor +
        costs.getD cursor 0 =
        sumRange costs (specUp costs cursor (avail / 2) cursor) (cursor + 1) :=
      (sumRange_succ_right costs hle).symm
    dsimp only
    rw [hsum, expandDown_eq costs avail _ (cursor + 1) _ (by omega) rfl]

/-- C5: for every cost list, cursor within bounds and row budget the window
satisfies `start ≤ cursor < end`, and an empty match list yields `(0, 0)`. -/
theorem windowContainsCursor (costs : List Nat) (cursor avail : Nat) :
    (cursor < costs.length →
      (computeWindow costs cursor avail).1 ≤ cursor ∧
        cursor < (computeWindow costs cursor avail).2) ∧
      (costs = [] → computeWindow costs cursor avail = (0, 0)) := by
  constructor
  · intro h
    have hne : ¬costs.length = 0 := by omega
    unfold computeWindow
    rw [if_neg hne]
    refine ⟨expandUp_fst_le costs (avail / 2) cursor 0, ?_⟩
    have hdown := le_expandDownAux avail (costs.drop (cursor + 1)) (cursor + 1)
      ((expandUp costs (avail / 2) cursor 0).2 + costs.getD cursor 0)
    unfold expandDown
    omega
  · intro h
    subst h
    rfl

/-- C5 witness: a concrete three-item window contains its cursor, and the
empty match list yields the empty window. -/
theorem windowContainsCursorWitness :
    (computeWindow [2, 1, 3] 1 4).1 ≤ 1 ∧ 1 < (computeWindow [2, 1, 3] 1 4).2 ∧
      computeWindow [] 5 7 = (0, 0) :=
  ⟨((windowContainsCursor [2, 1, 3] 1 4).1 (by decide)).1,
    ((windowContainsCursor [2, 1, 3] 1 4).1 (by decide)).2,
    (windowContainsCursor [] 5 7).2 rfl⟩

/-- A truncate-mode session at terminal width 10 (scenario width of the
spec). -/
def truncApp : App :=
  ⟨[], 0, [], [], 10, 24, true, []⟩

/-- A wrap-mode session at terminal width 10. -/
def wrapApp : App :=
  ⟨[], 0, [], [], 10, 24, false, []⟩

/-- A truncate-mode session at the degenerate terminal width 5, where
`width - 2 = 3` fails the `maxWidth > 3` guard of `render`. -/
def narrowApp : App :=
  ⟨[], 0, [], [], 5, 24, true, []⟩

/-- C6 counterexample: at width 5 a 10-byte display string exceeds
`width - 2 = 3`, yet `render` paints it unshortened because of its
`maxWidth > 3` guard, not as the claimed first `(width-2)-3` characters
plus a three-character ellipsis. -/
theorem truncationNarrowWidthCounterexample :
    narrowApp.truncate = true ∧
      narrowApp.width - 2 < (bytes "abcdefghij").length ∧
      narrowApp.renderTruncate (bytes "abcdefghij") = bytes "abcdefghij" ∧
      narrowApp.renderTruncate (bytes "abcdefghij") ≠
        (bytes "abcdefghij").take (narrowApp.width - 2 - 3) ++ bytes "..." := by
  decide

/-- C6 (amended): in truncate mode every item costs exactly one row, and —
provided `width - 2 > 3` — a display string longer than `width - 2` is
painted as its first `(width-2)-3` characters followed by the three-character
ellipsis marker; in wrap mode with `width > 2` the row count is
`ceil(len / (width - 2))` with a minimum of 1, and an empty string costs one
row. -/
theorem layoutRowsAndTruncation (a : App) (s : List Nat) :
    (a.truncate = true →
      a.calculateLines s = 1 ∧
        (3 < a.width - 2 → a.width - 2 < s.length →
          a.renderTruncate s = s.take (a.width - 2 - 3) ++ bytes "...")) ∧
      (a.truncate = false → 2 < a.width →
        a.calculateLines s = max 1 ((s.length + (a.width - 2) - 1) / (a.width - 2))) ∧
      a.calculateLines [] = 1 := by
  refine ⟨?_, ?_, by simp [App.calculateLines]⟩
  · intro ht
    constructor
    · simp [App.calculateLines, ht]
    · intro h1 h2
      unfold App.renderTruncate
      rw [if_pos ht, if_pos ⟨h2, h1⟩]
  · intro ht hw
    have hew : 0 < a.width - 2 := by omega
    unfold App.calculateLines
    by_cases hs : s.length = 0
    · rw [if_pos hs, hs]
      have : (0 + (a.width - 2) - 1) / (a.width - 2) = 0 :=
        Nat.div_eq_of_lt (by omega)
      omega
    · rw [if_neg hs, if_neg (by simp [ht]), if_neg (by omega)]
      have hone : 1 ≤ (s.length + (a.width - 2) - 1) / (a.width - 2) :=
        (Nat.one_le_div_iff hew).mpr (by omega)
      rw [if_neg (by omega)]
      omega

/-- C6 witness: at width 10 in truncate mode a 20-byte string costs one row
and paints as its first five characters plus the ellipsis; in wrap mode the
same string costs `ceil(20/8) = 3` rows. -/
theorem layoutRowsAndTruncationWitness :
    truncApp.calculateLines (bytes "abcdefghijklmnopqrst") = 1 ∧
      truncApp.renderTruncate (bytes "abcdefghijklmnopqrst") = bytes "abcde..." ∧
      wrapApp.calculateLines (bytes "abcdefghijklmnopqrst") = 3 := by
  have h := layoutRowsAndTruncation truncApp (bytes "abcdefghijklmnopqrst")
  have h2 := layoutRowsAndTruncation wrapApp (bytes "abcdefghijklmnopqrst")
  refine ⟨(h.1 rfl).1, ?_, ?_⟩
  · rw [(h.1 rfl).2 (by decide) (by decide)]
    decide
  · rw [h2.2.1 rfl (by decide)]
    decide

/-- Membership in the match list recomputed by `updateFilter`: position `i`
matches exactly when it is a record position and either the filter is empty
or the lowercased filter occurs in the lowercased display value. -/
theorem mem_updateFilter_iff (a : App) (i : Nat) :
    i ∈ (App.updateFilter a).filtered ↔
      i < a.displayVals.length ∧
        (a.filter = [] ∨
          containsSub (strToLower (a.displayVals.getD i []))
            (strToLower a.filter) = true) := by
  unfold App.updateFilter
  by_cases h : strToLower a.filter = []
  · have hf : a.filter = [] := strToLower_eq_nil.mp h
    rw [if_pos h]
    simp [List.mem_range, hf]
  · have hf : a.filter ≠ [] := fun hh => h (by simp [strToLower, hh])
    rw [if_neg h]
    simp [List.mem_filter, List.mem_range, hf]

/-- C7: appending characters to the filter text can only shrink the match
set, and membership in the match set is exactly case-insensitive substring
containment of the filter text in the record's rendered display value
(every record matching the empty filter). -/
theorem filterMonotoneSubstring (a : App) (ext : List Nat) (i : Nat) :
    (i ∈ (App.updateFilter { a with filter := a.filter ++ ext }).filtered →
        i ∈ (App.updateFilter a).filtered) ∧
      (i ∈ (App.updateFilter a).filtered ↔
        i < a.displayVals.length ∧
          (a.filter = [] ∨
            containsSub (strToLower (a.displayVals.getD i []))
              (strToLower a.filter) = true)) := by
  refine ⟨?_, mem_updateFilter_iff a i⟩
  intro hmem
  rw [mem_updateFilter_iff] at hmem
  rw [mem_updateFilter_iff]
  obtain ⟨hi, hcase⟩ := hmem
  refine ⟨hi, ?_⟩
  by_cases hf : a.filter = []
  · exact Or.inl hf
  · refine Or.inr ?_
    rcases hcase with hfe | hcontains
    · exact absurd (List.append_eq_nil.mp hfe).1 hf
    · rw [strToLower_append] at hcontains
      exact containsSub_append _ _ _ hcontains

/-- The Alpha/Beta/Gamma record store of the spec's scenario, with the
filter text already at `"a"`. -/
def appAlpha : App :=
  ⟨[bytes "Alpha", bytes "Beta", bytes "Gamma"], 0, [0, 1, 2], bytes "a",
    80, 24, false, []⟩

/-- C7 witness: record 0 ("Alpha") matches the extended filter `"al"`, so by
monotonicity it also matches `"a"`; and its membership is the
case-insensitive containment test. -/
theorem filterMonotoneSubstringWitness :
    0 ∈ (App.updateFilter appAlpha).filtered ∧
      (0 ∈ (App.updateFilter appAlpha).filtered ↔
        0 < appAlpha.displayVals.length ∧
          (appAlpha.filter = [] ∨
            containsSub (strToLower (appAlpha.displayVals.getD 0 []))
              (strToLower appAlpha.filter) = true)) :=
  ⟨(filterMonotoneSubstring appAlpha (bytes "l") 0).1 (by decide),
    (filterMonotoneSubstring appAlpha (bytes "l") 0).2⟩

/-- C9: recomputing the filter changes only the match list and the cursor —
the cursor becoming `min cursor (max 0 (len(matches) - 1))` — while the
selection map, the display values (record store and display configuration)
and the rest of the session state are untouched. -/
theorem updateFilterFrame (a : App) (h : a.cursor < a.displayVals.length) :
    (App.updateFilter a).selected = a.selected ∧
      (App.updateFilter a).displayVals = a.displayVals ∧
      (App.updateFilter a).filter = a.filter ∧
      (App.updateFilter a).truncate = a.truncate ∧
      (App.updateFilter a).width = a.width ∧
      (App.updateFilter a).height = a.height ∧
      (App.updateFilter a).cursor =
        min a.cursor (max 0 ((App.updateFilter a).filtered.length - 1)) := by
  unfold App.updateFilter
  by_cases hf : strToLower a.filter = []
  · rw [if_pos hf]
    refine ⟨rfl, rfl, rfl, rfl, rfl, rfl, ?_⟩
    simp only [List.length_range]
    omega
  · rw [if_neg hf]
    refine ⟨rfl, rfl, rfl, rfl, rfl, rfl, ?_⟩
    dsimp only
    split
    · omega
    · omega

/-- A session whose filter text matches nothing, with a mark on record 0 and
the cursor at 1, used to witness the updateFilter frame conditions. -/
def clampApp : App :=
  ⟨[bytes "x", bytes "yz"], 1, [0, 1], bytes "q", 80, 24, false, [(0, true)]⟩

/-- C9 witness: on a concrete state whose new match list is empty, the
selection map survives re-filtering and the cursor is clamped to
`min 1 (max 0 (0 - 1)) = 0`. -/
theorem updateFilterFrameWitness :
    (App.updateFilter clampApp).selected = clampApp.selected ∧
      (App.updateFilter clampApp).cursor =
        min clampApp.cursor
          (max 0 ((App.updateFilter clampApp).filtered.length - 1)) :=
  ⟨(updateFilterFrame clampApp (by decide)).1,
    (updateFilterFrame clampApp (by decide)).2.2.2.2.2.2⟩

/-- A reachable state refuting C1 as stated: mark record 0 of a two-record
session, then type `z`, which matches nothing. -/
def emptyMatchesMarkedApp : App :=
  App.handleCharacter
    (App.toggleSelection (initialApp [bytes "alpha", bytes "beta"] 80 24 false))
    122

/-- C1 counterexample: in `emptyMatchesMarkedApp` record position 0 is
marked, yet `getSelection` returns no positions at all because the current
filter has emptied the match list — so the selection is **not** returned
"regardless of the current filter". -/
theorem getSelectionIgnoresMarksWhenNoMatches :
    mapGet emptyMatchesMarkedApp.selected 0 = true ∧
      emptyMatchesMarkedApp.filtered = [] ∧
      emptyMatchesMarkedApp.getSelection = [] := by
  decide

/-- C1 (amended): when the match list is non-empty with the cursor in
bounds, the selection map is non-empty and holds no stale toggled-off entry
(every stored value is `true`, keys pairwise distinct), `getSelection`
returns exactly the marked record positions in strictly ascending order,
regardless of the order the marks were toggled; when the match list is
empty it returns no positions even if marks exist. -/
theorem getSelectionMarkedSorted (a : App)
    (hne : a.filtered.length ≠ 0) (hc : a.cursor < a.filtered.length)
    (hall : ∀ kv ∈ a.selected, kv.2 = true) (hsel : a.selected ≠ [])
    (hnd : (a.selected.map Prod.fst).Nodup) :
    List.Sorted (· < ·) a.getSelection ∧
      (∀ p, p ∈ a.getSelection ↔ mapGet a.selected p = true) ∧
      (∀ b : App, b.filtered = [] → b.getSelection = []) := by
  have hsel' : 0 < a.selected.length := List.length_pos.mpr hsel
  have hgs : a.getSelection =
      List.insertionSort (· ≤ ·) (a.selected.map Prod.fst) := by
    unfold App.getSelection
    rw [if_neg (by omega), if_pos hsel']
  refine ⟨?_, ?_, ?_⟩
  · rw [hgs]
    exact List.Sorted.lt_of_le (List.sorted_insertionSort _ _)
      (((List.perm_insertionSort _ _).nodup_iff).mpr hnd)
  · intro p
    rw [hgs, List.mem_insertionSort, ← mapGet_true_iff _ hall p]
  · intro b hb
    unfold App.getSelection
    rw [hb]
    simp

/-- The spec's multi-select scenario: marks on record positions 3 and 1
(toggled in that order), cursor on the first match. -/
def markedScenarioApp : App :=
  ⟨[bytes "a", bytes "b", bytes "c", bytes "d"], 0, [0, 1, 2, 3], [],
    80, 24, false, [(3, true), (1, true)]⟩

/-- C1 witness: with marks toggled in the order 3 then 1, the selection
comes back strictly ascending as `[1, 3]`. -/
theorem getSelectionMarkedSortedWitness :
    List.Sorted (· < ·) markedScenarioApp.getSelection ∧
      (1 ∈ markedScenarioApp.getSelection ↔
        mapGet markedScenarioApp.selected 1 = true) ∧
      markedScenarioApp.getSelection = [1, 3] := by
  have h := getSelectionMarkedSorted markedScenarioApp (by decide) (by decide)
    (by decide) (by decide) (by decide)
  exact ⟨h.1, h.2.1 1, by decide⟩

/-- The C2 failing input, executed: on a two-record session press
Ctrl+Space (marks record 0, cursor advances to 1), Up, then Ctrl+Space
again (toggles record 0 back off, cursor advances to 1). -/
def staleToggleApp : App :=
  App.toggleSelection
    (App.moveCursorUp
      (App.toggleSelection (initialApp [bytes "alpha", bytes "beta"] 80 24 false)))

/-- C2 (code bug), evaluated at the failing input: after mark/unmark of
record 0 the marked set is empty (`selected` holds only the stale entry
`(0, false)`, which `render` displays as unselected), yet `getSelection`
returns `[0]` — the stale map key — instead of the record position 1 under
the cursor.  Go never deletes the map key, and `getSelection` iterates keys
without consulting their values. -/
theorem staleUnmarkedKeyReturned :
    staleToggleApp.selected = [(0, false)] ∧
      staleToggleApp.cursor = 1 ∧
      staleToggleApp.filtered = [0, 1] ∧
      staleToggleApp.getSelection = [0] := by
  decide

/-- C3: two `toggleMark` invocations hitting the same record position (the
second state `b` reached from the first toggle by cursor moves only: same
match list, the toggled selection map, any in-bounds cursor over the same
record) restore every record position's marked status to its prior value;
and each call advances the cursor by one whenever it is not at the last
match. -/
theorem togglePairRestoresMarks (a b : App)
    (ha1 : a.filtered.length ≠ 0) (ha2 : a.cursor < a.filtered.length)
    (hbf : b.filtered = a.filtered)
    (hbs : b.selected = (App.toggleSelection a).selected)
    (hb2 : b.cursor < b.filtered.length)
    (hsame : b.filtered.getD b.cursor 0 = a.filtered.getD a.cursor 0) :
    (∀ p, mapGet (App.toggleSelection b).selected p = mapGet a.selected p) ∧
      (∀ c : App, c.cursor < c.filtered.length - 1 →
        (App.toggleSelection c).cursor = c.cursor + 1) := by
  constructor
  · intro p
    have hta : (App.toggleSelection a).selected =
        mapSet a.selected (a.filtered.getD a.cursor 0)
          (!(mapGet a.selected (a.filtered.getD a.cursor 0))) := by
      unfold App.toggleSelection
      rw [if_pos ⟨ha1, ha2⟩]
    have htb : (App.toggleSelection b).selected =
        mapSet b.selected (b.filtered.getD b.cursor 0)
          (!(mapGet b.selected (b.filtered.getD b.cursor 0))) := by
      unfold App.toggleSelection
      rw [if_pos ⟨by rw [hbf]; exact ha1, hb2⟩]
    rw [htb, hsame, hbs, hta]
    by_cases hp : a.filtered.getD a.cursor 0 = p
    · subst hp
      rw [mapGet_mapSet_self, mapGet_mapSet_self, Bool.not_not]
    · rw [mapGet_mapSet_ne _ _ _ _ hp, mapGet_mapSet_ne _ _ _ _ hp]
  · intro c hlt
    unfold App.toggleSelection
    rw [if_pos ⟨by omega, by omega⟩]
    dsimp only
    rw [if_pos hlt]

/-- A two-record session with the cursor on the last match. -/
def lastMatchApp : App :=
  ⟨[bytes "x", bytes "y"], 1, [0, 1], [], 80, 24, false, []⟩

/-- The same session after one toggle: the cursor stays on the last match,
so a second toggle hits the same record position. -/
def lastMatchToggledApp : App :=
  App.toggleSelection lastMatchApp

/-- A two-record session with the cursor on the first match, for the
cursor-advance half of C3. -/
def advanceApp : App :=
  ⟨[bytes "x", bytes "y"], 0, [0, 1], [], 80, 24, false, []⟩

/-- C3 witness: toggling the last match twice restores record 1's marked
status, and a toggle away from the last match advances the cursor. -/
theorem togglePairRestoresMarksWitness :
    mapGet (App.toggleSelection lastMatchToggledApp).selected 1 =
      mapGet lastMatchApp.selected 1 ∧
      (App.toggleSelection advanceApp).cursor = advanceApp.cursor + 1 := by
  have h := togglePairRestoresMarks lastMatchApp lastMatchToggledApp
    (by decide) (by decide) (by decide) rfl (by decide) (by decide)
  exact ⟨h.1 1, h.2 advanceApp (by decide)⟩

/-- C8: `handleInput` implements exactly the decoder classification table —
each recognized read performs its event's effect, and every unrecognized
read (other single bytes, unknown escape sequences, other read shapes)
emits no event and leaves the state unchanged. -/
theorem inputDecoderClassification (a : App) (buf : List Nat) :
    a.handleInput buf =
      (match decodeEvent buf with
        | none => ((false, []), a)
        | some e => applyEvent a e) := by
  rcases buf with _ | ⟨b, _ | ⟨b2, _ | ⟨b3, _ | ⟨b4, rest⟩⟩⟩⟩
  · rfl
  · simp only [App.handleInput, decodeEvent]
    by_cases h0 : b = 0
    · subst h0; rfl
    · rw [if_neg h0]
      by_cases h3 : b = 3 ∨ b = 27
      · rw [if_pos h3, if_pos h3]; rfl
      · rw [if_neg h3, if_neg h3]
        by_cases h10 : b = 10 ∨ b = 13
        · rw [if_pos h10, if_pos h10]; rfl
        · rw [if_neg h10, if_neg h10]
          by_cases h127 : b = 127
          · rw [if_pos h127, if_pos h127]; rfl
          · rw [if_neg h127, if_neg h127, if_neg h0]
            by_cases hch : 32 ≤ b ∧ b ≤ 126
            · rw [if_pos hch]; rfl
            · rw [if_neg hch]
              show ((false, []), a.handleCharacter b) = ((false, []), a)
              unfold App.handleCharacter
              rw [if_neg (by omega)]
  · rfl
  · simp only [App.handleInput, decodeEvent]
    by_cases h1 : b = 27 ∧ b2 = 91
    · rw [if_pos h1, if_pos h1]
      by_cases h65 : b3 = 65
      · subst h65; rfl
      · by_cases h66 : b3 = 66
        · subst h66; rfl
        · rw [if_neg h65, if_neg h65, if_neg h66, if_neg h66]
    · rw [if_neg h1, if_neg h1]
  · rfl

/-- A session with record 0 marked but an empty match list (filter `zz`
matches nothing). -/
def markedNoMatchApp : App :=
  ⟨[bytes "alpha"], 0, [], bytes "zz", 80, 24, false, [(0, true)]⟩

/-- C10: when the match list is empty, Enter (byte 10 or 13) terminates the
session with the empty result — exactly the outcome of Cancel (byte 27) —
even when record positions are marked; the marks are not returned. -/
theorem confirmOnEmptyMatches (a : App) (h : a.filtered = []) :
    a.handleInput [10] = ((true, []), a) ∧
      a.handleInput [13] = ((true, []), a) ∧
      a.handleInput [27] = ((true, []), a) := by
  have hg : a.getSelection = [] := by
    unfold App.getSelection
    rw [h]
    simp
  refine ⟨?_, ?_, rfl⟩ <;> simp [App.handleInput, hg]

/-- C10 witness: the marked, match-less session above confirms to the empty
result on both Enter bytes, identically to Cancel. -/
theorem confirmOnEmptyMatchesWitness :
    markedNoMatchApp.handleInput [10] = ((true, []), markedNoMatchApp) ∧
      markedNoMatchApp.handleInput [13] = ((true, []), markedNoMatchApp) ∧
      markedNoMatchApp.handleInput [27] = ((true, []), markedNoMatchApp) :=
  confirmOnEmptyMatches markedNoMatchApp rfl

end Qjp
